import Mathlib

/-!
Verification of the anSWer-Logging-Hub session/file-naming core.

Strings from the Python source are modelled as `List Char`; Python string
operations (`replace`, `upper`, `lower`, `strip`, slicing, `startswith`,
`"_".join`) become the corresponding list operations.  `pathlib` paths are
modelled as lists of path components (`List (List Char)`), and a directory
listing as a list of `FileEntry` records (name, regular-file flag,
modification time).  Modification times and wall-clock stamps (Python
floats) are modelled as integers: the code only compares times and shifts
them by the constant `1.0`, and both operations are order-faithfully
represented in any linearly ordered time domain containing the integers.
-/

/-- Python `str` modelled as a list of characters. -/
abbrev Str := List Char

/-- The underscore separator used by the naming engine. -/
def und : Str := ['_']

/-- Python `value.replace(" ", "_")` (the `sanitize` lambda in
`_vehicle_model_tag` and the inline sanitization in `_on_start_stop_click`). -/
def pySanitize (s : Str) : Str := s.map (fun c => if c = ' ' then '_' else c)

/-- Python `str.upper()` (ASCII, as used on the release identifiers). -/
def pyUpper (s : Str) : Str := s.map Char.toUpper

/-- Python `str.lower()` (ASCII, as used on file extensions and labels). -/
def pyLower (s : Str) : Str := s.map Char.toLower

/-- Python `str.strip()`. -/
def pyStrip (s : Str) : Str :=
  ((s.dropWhile Char.isWhitespace).reverse.dropWhile Char.isWhitespace).reverse

/-- Distance (in characters) from the start of a list to its first `'.'`,
if any.  Applied to a reversed name this locates the last dot, as Python
`str.rfind('.')` does. -/
def revDotDist : Str → Option Nat
  | [] => none
  | c :: rest => if c = '.' then some 0 else (revDotDist rest).map (· + 1)

/-- Index of the last `'.'` in a name (Python `name.rfind('.')`),
`none` when there is no dot. -/
def pyDotIdx (name : Str) : Option Nat :=
  (revDotDist name.reverse).map (fun j => name.length - 1 - j)

/-- `pathlib.PurePath.suffix`: the extension including the dot, or empty;
the dot must be at an index `i` with `0 < i < len - 1`. -/
def pyExt (name : Str) : Str :=
  match pyDotIdx name with
  | some i => if 0 < i ∧ i < name.length - 1 then name.drop i else []
  | none => []

/-- `pathlib.PurePath.stem`: the name with `pyExt` removed. -/
def pyStem (name : Str) : Str :=
  match pyDotIdx name with
  | some i => if 0 < i ∧ i < name.length - 1 then name.take i else name
  | none => name

/-- `join_nonempty` of the spec: join the non-empty components with a
separator (`"_".join([p for p in parts if p])` over exactly the given
components). -/
def joinNonEmpty (sep : Str) (parts : List Str) : Str :=
  List.intercalate sep (parts.filter (· ≠ []))

/-- The session name prefix built in `_on_start_stop_click` (lines
1783-1797): sanitize release and tag, keep the vehicle token as supplied,
collect the non-empty components and join them with `"_"`. -/
def buildBasePfx (rel veh tag : Str) : Str :=
  let safeTag := pySanitize tag
  let relSan := pySanitize rel
  let parts : List Str :=
    [relSan] ++ (if veh ≠ [] then [veh] else []) ++ (if safeTag ≠ [] then [safeTag] else [])
  List.intercalate und (parts.filter (· ≠ []))

example : buildBasePfx "R300RC1".data "Veh6".data [] = "R300RC1_Veh6".data := by decide

example : buildBasePfx "R300RC1".data "Veh1".data "my Case".data
    = "R300RC1_Veh1_my_Case".data := by decide

/-! ### Output Resolver (`_try_resolve_comment_filename_once`, lines 1574-1638) -/

/-- One directory entry as seen by `folder.iterdir()`: its name, whether it
is a regular file, and its `st_mtime`. -/
structure FileEntry where
  name : Str
  isFile : Bool
  mtime : ℤ
deriving DecidableEq

/-- The fixed extension ignore set `{".txt", ".avi", ".tmp"}`. -/
def ignoreExts : List Str := [".txt".data, ".avi".data, ".tmp".data]

/-- One step of the scanning loop of `_try_resolve_comment_filename_once`:
skip non-files, names not starting with the prefix, ignored extensions
(lower-cased) and entries with `mtime + 1.0 < start_ts`; otherwise keep the
entry when its mtime beats the best seen so far (initially `-1.0`). -/
def resolveStep (pfx : Str) (start : ℤ) (acc : Option FileEntry × ℤ)
    (p : FileEntry) : Option FileEntry × ℤ :=
  if ¬ p.isFile then acc
  else if ¬ pfx.isPrefixOf p.name then acc
  else if pyLower (pyExt p.name) ∈ ignoreExts then acc
  else if p.mtime + 1 < start then acc
  else if p.mtime > acc.2 then (some p, p.mtime) else acc

/-- The scanning loop of `_try_resolve_comment_filename_once`: fold the
directory entries with `resolveStep`, starting from `best_path = None`,
`best_mtime = -1.0`. -/
def resolveScan (pfx : Str) (start : ℤ) (entries : List FileEntry) : Option FileEntry :=
  (entries.foldl (resolveStep pfx start) (none, -1)).1

/-- The suffix resolved by a single attempt of
`_try_resolve_comment_filename_once`: the best entry's stem with the first
`pfx.length` characters removed, `none` when no entry was kept or the
stripped suffix is empty. -/
def resolveOnceSuffix (pfx : Str) (start : ℤ) (entries : List FileEntry) : Option Str :=
  match resolveScan pfx start entries with
  | none => none
  | some best =>
    let s := (pyStem best.name).drop pfx.length
    if s = [] then none else some s

/-- The survivor predicate, stated as in the specification: a regular file
directly in the folder, name starting with the prefix, extension
(case-insensitively) outside the ignore set, and `mtime + 1.0 >= start`. -/
def isSurvivor (pfx : Str) (start : ℤ) (p : FileEntry) : Bool :=
  p.isFile && pfx.isPrefixOf p.name && !(pyLower (pyExt p.name) ∈ ignoreExts : Bool)
    && decide (start ≤ p.mtime + 1)

/-- One comparison of the latest-entry selection: keep the newcomer when
its mtime is strictly larger. -/
def pickStep (acc : Option FileEntry) (p : FileEntry) : Option FileEntry :=
  match acc with
  | none => some p
  | some b => if p.mtime > b.mtime then some p else some b

/-- Pick the entry with the latest modification time (first one wins on
ties), as the specification describes the selection among survivors. -/
def pickLatest (l : List FileEntry) : Option FileEntry :=
  l.foldl pickStep none

/-- The resolution result as the specification words it: filter the
survivors, pick the latest one, strip the prefix from its stem, report
not-found on an empty suffix. -/
def resolveSpecSuffix (pfx : Str) (start : ℤ) (entries : List FileEntry) : Option Str :=
  match pickLatest (entries.filter (isSurvivor pfx start)) with
  | none => none
  | some best =>
    let s := (pyStem best.name).drop pfx.length
    if s = [] then none else some s

example :
    resolveOnceSuffix "A_".data 10 [⟨"A_tok.blf".data, true, 11⟩, ⟨"A_old.blf".data, true, 5⟩]
      = some "tok".data := by decide

example :
    resolveOnceSuffix "A_".data 10 [⟨"A_tok.txt".data, true, 11⟩] = none := by decide

/-- Couple the Python loop accumulator `(best_path, best_mtime)` with the
abstract best entry: `None` corresponds to the sentinel `-1.0`. -/
def accOf : Option FileEntry → Option FileEntry × ℤ
  | none => (none, -1)
  | some b => (some b, b.mtime)

lemma resolveStep_of_not_survivor {pfx : Str} {start : ℤ} {p : FileEntry}
    (h : isSurvivor pfx start p = false) (acc : Option FileEntry × ℤ) :
    resolveStep pfx start acc p = acc := by
  unfold resolveStep
  by_cases hf : p.isFile = true
  · by_cases hp : pfx.isPrefixOf p.name
    · by_cases hext : pyLower (pyExt p.name) ∈ ignoreExts
      · simp [hf, hp, hext]
      · have ht : p.mtime + 1 < start := by
          by_contra hcon
          have htrue : isSurvivor pfx start p = true := by
            simp [isSurvivor, hf, hp, hext]
            omega
          rw [htrue] at h
          cases h
        simp [hf, hp, hext, ht]
    · simp [hf, hp]
  · simp [hf]

lemma resolveStep_of_survivor {pfx : Str} {start : ℤ} {p : FileEntry}
    (hstart : 0 < start) (h : isSurvivor pfx start p = true) (acc : Option FileEntry) :
    resolveStep pfx start (accOf acc) p = accOf (pickStep acc p) := by
  simp only [isSurvivor, Bool.and_eq_true, Bool.not_eq_true', decide_eq_true_eq,
    decide_eq_false_iff_not] at h
  obtain ⟨⟨⟨hf, hp⟩, hext⟩, ht⟩ := h
  have hnot : ¬ p.mtime + 1 < start := by omega
  cases acc with
  | none =>
    have hm : (-1 : ℤ) < p.mtime := by omega
    simp [resolveStep, accOf, pickStep, hf, hp, hext, hnot, hm]
  | some b =>
    by_cases hgt : p.mtime > b.mtime
    · simp [resolveStep, accOf, pickStep, hf, hp, hext, hnot, hgt]
    · simp [resolveStep, accOf, pickStep, hf, hp, hext, hnot, hgt]

lemma resolveScan_foldl_eq {pfx : Str} {start : ℤ} (hstart : 0 < start) :
    ∀ (entries : List FileEntry) (acc : Option FileEntry),
      entries.foldl (resolveStep pfx start) (accOf acc)
        = accOf ((entries.filter (isSurvivor pfx start)).foldl pickStep acc)
  | [], _ => rfl
  | p :: t, acc => by
    rcases Bool.eq_false_or_eq_true (isSurvivor pfx start p) with hs | hs
    · rw [List.foldl_cons, resolveStep_of_survivor hstart hs acc,
        List.filter_cons_of_pos hs, List.foldl_cons,
        resolveScan_foldl_eq hstart t (pickStep acc p)]
    · rw [List.foldl_cons, resolveStep_of_not_survivor hs (accOf acc),
        List.filter_cons_of_neg (by simp [hs]), resolveScan_foldl_eq hstart t acc]

lemma resolveScan_eq_pickLatest {pfx : Str} {start : ℤ} (entries : List FileEntry)
    (hstart : 0 < start) :
    resolveScan pfx start entries = pickLatest (entries.filter (isSurvivor pfx start)) := by
  have h := @resolveScan_foldl_eq pfx start hstart entries none
  simp only [accOf] at h
  rw [resolveScan, h, pickLatest]
  cases (entries.filter (isSurvivor pfx start)).foldl pickStep none <;> rfl

lemma pickFold_spec :
    ∀ (l : List FileEntry) (acc : Option FileEntry) (b : FileEntry),
      l.foldl pickStep acc = some b →
      (acc = some b ∨ b ∈ l) ∧ (∀ e ∈ l, e.mtime ≤ b.mtime)
        ∧ (∀ a, acc = some a → a.mtime ≤ b.mtime)
  | [], acc, b, h => by
    rw [List.foldl_nil] at h
    refine ⟨Or.inl h, by simp, ?_⟩
    intro a ha
    rw [ha] at h
    cases h
    exact le_refl _
  | p :: t, acc, b, h => by
    rw [List.foldl_cons] at h
    obtain ⟨hmem, hbound, haccb⟩ := pickFold_spec t (pickStep acc p) b h
    have hpb : p.mtime ≤ b.mtime := by
      cases acc with
      | none => exact haccb p rfl
      | some a =>
        by_cases hgt : p.mtime > a.mtime
        · exact haccb p (by simp [pickStep, hgt])
        · exact le_trans (not_lt.mp hgt) (haccb a (by simp [pickStep, hgt]))
    refine ⟨?_, ?_, ?_⟩
    · rcases hmem with hstep | hmem
      · cases acc with
        | none =>
          simp only [pickStep] at hstep
          cases hstep
          exact Or.inr (List.mem_cons_self _ _)
        | some a =>
          by_cases hgt : p.mtime > a.mtime
          · simp only [pickStep, if_pos hgt] at hstep
            cases hstep
            exact Or.inr (List.mem_cons_self _ _)
          · simp only [pickStep, if_neg hgt] at hstep
            exact Or.inl hstep
      · exact Or.inr (List.mem_cons_of_mem _ hmem)
    · intro e he
      rcases List.mem_cons.mp he with rfl | he
      · exact hpb
      · exact hbound e he
    · intro a ha
      cases ha
      by_cases hgt : p.mtime > a.mtime
      · exact le_trans (le_of_lt hgt) hpb
      · exact haccb a (by simp [pickStep, hgt])

/-- C1: a single resolution attempt of the Output Resolver considers
exactly the survivors (regular files directly in the folder whose name
starts with the prefix, whose lower-cased extension is outside the ignore
set and whose `mtime + 1.0 >= start_wallclock`), picks the survivor with the
latest modification time, returns its stem with the prefix stripped, and
reports not-found when no survivor exists or the stripped suffix is empty:
the code's fused scanning loop equals the specification's staged
filter-then-pick description, and the picked entry really is a survivor of
maximal modification time. -/
theorem c1_resolver_selection (pfx : Str) (start : ℤ) (entries : List FileEntry)
    (hstart : 0 < start) :
    resolveOnceSuffix pfx start entries = resolveSpecSuffix pfx start entries
    ∧ (∀ b, pickLatest (entries.filter (isSurvivor pfx start)) = some b →
        b ∈ entries.filter (isSurvivor pfx start)
          ∧ ∀ e ∈ entries.filter (isSurvivor pfx start), e.mtime ≤ b.mtime) := by
  constructor
  · rw [resolveOnceSuffix, resolveSpecSuffix, resolveScan_eq_pickLatest entries hstart]
  · intro b hb
    obtain ⟨hmem, hbound, _⟩ := pickFold_spec _ none b hb
    exact ⟨hmem.resolve_left (by simp), hbound⟩

/-- Witness for C1 at a concrete input: prefix `"A_"`, start time `10`, a
folder holding a stale `.blf`, a fresh `.blf` and an ignored `.txt` file. -/
theorem c1_resolver_selection_witness :
    resolveOnceSuffix "A_".data 10
        [⟨"A_old.blf".data, true, 5⟩, ⟨"A_new.blf".data, true, 11⟩, ⟨"A_new.txt".data, true, 12⟩]
      = resolveSpecSuffix "A_".data 10
        [⟨"A_old.blf".data, true, 5⟩, ⟨"A_new.blf".data, true, 11⟩, ⟨"A_new.txt".data, true, 12⟩] :=
  (c1_resolver_selection "A_".data 10
    [⟨"A_old.blf".data, true, 5⟩, ⟨"A_new.blf".data, true, 11⟩, ⟨"A_new.txt".data, true, 12⟩]
    (by decide)).1

/-! ### Session Naming Engine (C2): the name prefix -/

lemma space_not_mem_pySanitize (s : Str) : ' ' ∉ pySanitize s := by
  intro h
  obtain ⟨a, _, ha⟩ := List.mem_map.mp h
  by_cases hsp : a = ' '
  · simp [hsp] at ha
  · rw [if_neg hsp] at ha
    exact hsp ha

lemma pySanitize_eq_self : ∀ {s : Str}, ' ' ∉ s → pySanitize s = s
  | [], _ => rfl
  | c :: t, h => by
    have hc : c ≠ ' ' := fun hs => h (hs ▸ List.mem_cons_self c t)
    have ht : ' ' ∉ t := fun hm => h (List.mem_cons_of_mem c hm)
    simp only [pySanitize, List.map_cons, if_neg hc]
    exact congrArg (c :: ·) (pySanitize_eq_self ht)

lemma mem_intercalate_und {c : Char} :
    ∀ (l : List Str), c ∈ List.intercalate und l → c ∈ und ∨ ∃ a ∈ l, c ∈ a
  | [], h => by simp [List.intercalate] at h
  | [a], h => by
    simp only [List.intercalate, List.intersperse, List.flatten, List.append_nil] at h
    exact Or.inr ⟨a, by simp, h⟩
  | a :: b :: t, h => by
    have hsplit : List.intercalate und (a :: b :: t)
        = a ++ und ++ List.intercalate und (b :: t) := by
      simp [List.intercalate, List.intersperse]
    rw [hsplit] at h
    rcases List.mem_append.mp h with h1 | h2
    · rcases List.mem_append.mp h1 with ha | hs
      · exact Or.inr ⟨a, by simp, ha⟩
      · exact Or.inl hs
    · rcases mem_intercalate_und (b :: t) h2 with hs | ⟨x, hx, hcx⟩
      · exact Or.inl hs
      · exact Or.inr ⟨x, List.mem_cons_of_mem _ hx, hcx⟩

lemma buildBasePfx_eq_filter (rel veh tag : Str) :
    buildBasePfx rel veh tag
      = List.intercalate und (([pySanitize rel, veh, pySanitize tag]).filter (· ≠ [])) := by
  by_cases hv : veh = [] <;> by_cases ht : pySanitize tag = [] <;>
    simp [buildBasePfx, hv, ht, List.filter]

/-- C2: the session name prefix equals `join_nonempty("_", ...)` of the
sanitized components, never contains a space, and omits empty components
without leaving a doubled separator. -/
theorem c2_name_pfx (rel veh tag : Str) (hveh : ' ' ∉ veh) :
    buildBasePfx rel veh tag
        = joinNonEmpty und [pySanitize rel, pySanitize veh, pySanitize tag]
    ∧ ' ' ∉ buildBasePfx rel veh tag
    ∧ (veh = [] → buildBasePfx rel veh tag = joinNonEmpty und [pySanitize rel, pySanitize tag])
    ∧ (tag = [] → buildBasePfx rel veh tag = joinNonEmpty und [pySanitize rel, pySanitize veh])
    ∧ buildBasePfx "R300RC1".data "Veh6".data [] = "R300RC1_Veh6".data := by
  refine ⟨?_, ?_, ?_, ?_, by decide⟩
  · rw [buildBasePfx_eq_filter, joinNonEmpty, pySanitize_eq_self hveh]
  · rw [buildBasePfx_eq_filter]
    intro hc
    rcases mem_intercalate_und _ hc with hs | ⟨a, ha, hca⟩
    · simp [und] at hs
    · have ha' := List.mem_of_mem_filter ha
      simp only [List.mem_cons, List.not_mem_nil, or_false] at ha'
      rcases ha' with h | h | h
      · exact space_not_mem_pySanitize rel (h ▸ hca)
      · exact hveh (h ▸ hca)
      · exact space_not_mem_pySanitize tag (h ▸ hca)
  · intro hv
    rw [buildBasePfx_eq_filter, joinNonEmpty, hv]
    simp [List.filter]
  · intro ht
    rw [buildBasePfx_eq_filter, joinNonEmpty, pySanitize_eq_self hveh, ht]
    have : pySanitize [] = [] := rfl
    rw [this]
    simp [List.filter]

/-- Witness for C2 at a concrete input with a space inside the tag. -/
theorem c2_name_pfx_witness :
    buildBasePfx "R300RC1".data "XC60_Veh6".data "my case".data
      = joinNonEmpty und
          [pySanitize "R300RC1".data, pySanitize "XC60_Veh6".data, pySanitize "my case".data] :=
  (c2_name_pfx "R300RC1".data "XC60_Veh6".data "my case".data (by decide)).1

/-! ### Session Naming Engine (C3): run layout and folder creation -/

/-- A filesystem path, as a list of components. -/
abbrev PathC := List Str

/-- All ancestors of a path (including the path itself and the root). -/
def ancestorsOf (p : PathC) : List PathC :=
  (List.range (p.length + 1)).map (fun n => p.take n)

/-- `Path.mkdir(parents=True, exist_ok=True)` over a filesystem modelled as
the list of existing folders: add every missing ancestor of `p`. -/
def mkdirAll (fs : List PathC) (p : PathC) : List PathC :=
  fs ++ (ancestorsOf p).filter (fun a => decide (a ∉ fs))

/-- The run layout derived by `_on_start_stop_click` (lines 1776-1804):
`name_prefix` and `log_folder = resolved_root / sw_rel /
(sanitized_rel + "_" + date) / name_prefix`. -/
def buildRunLayout (logRoot : PathC) (rel veh tag date : Str) : Str × PathC :=
  (buildBasePfx rel veh tag,
   logRoot ++ [rel, pySanitize rel ++ und ++ date, buildBasePfx rel veh tag])

/-- The two folder creations Start performs: `release_dir.mkdir(...)`
followed by `log_folder.mkdir(...)`. -/
def startMkdirs (fs : List PathC) (logRoot : PathC) (rel veh tag date : Str) : List PathC :=
  mkdirAll (mkdirAll fs (logRoot ++ [rel])) (buildRunLayout logRoot rel veh tag date).2

lemma subset_mkdirAll (fs : List PathC) (p : PathC) : fs ⊆ mkdirAll fs p :=
  List.subset_append_left _ _

lemma ancestors_subset_mkdirAll (fs : List PathC) (p : PathC) :
    ancestorsOf p ⊆ mkdirAll fs p := by
  intro a ha
  by_cases hm : a ∈ fs
  · exact List.mem_append_left _ hm
  · exact List.mem_append_right _ (List.mem_filter.mpr ⟨ha, by simp [hm]⟩)

lemma mkdirAll_of_present {fs : List PathC} {p : PathC} (h : ancestorsOf p ⊆ fs) :
    mkdirAll fs p = fs := by
  unfold mkdirAll
  rw [List.filter_eq_nil_iff.mpr, List.append_nil]
  intro a ha
  simp [h ha]

lemma ancestorsOf_append_subset (p q : PathC) :
    ancestorsOf p ⊆ ancestorsOf (p ++ q) := by
  intro a ha
  obtain ⟨n, hn, rfl⟩ := List.mem_map.mp ha
  rw [List.mem_range, Nat.lt_succ_iff] at hn
  refine List.mem_map.mpr ⟨n, ?_, ?_⟩
  · rw [List.mem_range, Nat.lt_succ_iff, List.length_append]
    omega
  · exact List.take_append_of_le_length hn

/-- C3: Start derives the log folder as
`log_root / release / (release + "_" + date) / name_prefix`; the derivation
is a function of exactly these inputs, creating the folders only adds
missing ancestors (existing folders are untouched), and repeating the
creation changes nothing. -/
theorem c3_run_layout (logRoot : PathC) (rel veh tag date : Str) (hrel : ' ' ∉ rel) :
    (buildRunLayout logRoot rel veh tag date).1 = buildBasePfx rel veh tag
    ∧ (buildRunLayout logRoot rel veh tag date).2
        = logRoot ++ [rel, rel ++ und ++ date, buildBasePfx rel veh tag]
    ∧ (∀ fs, fs ⊆ startMkdirs fs logRoot rel veh tag date)
    ∧ (∀ fs, startMkdirs (startMkdirs fs logRoot rel veh tag date) logRoot rel veh tag date
        = startMkdirs fs logRoot rel veh tag date) := by
  refine ⟨rfl, ?_, ?_, ?_⟩
  · simp [buildRunLayout, pySanitize_eq_self hrel]
  · intro fs
    exact (subset_mkdirAll _ _).trans (subset_mkdirAll _ _)
  · intro fs
    have hfolder : (buildRunLayout logRoot rel veh tag date).2
        = (logRoot ++ [rel]) ++ [pySanitize rel ++ und ++ date, buildBasePfx rel veh tag] := by
      simp [buildRunLayout]
    have hanc : ancestorsOf (logRoot ++ [rel])
        ⊆ ancestorsOf (buildRunLayout logRoot rel veh tag date).2 := by
      rw [hfolder]
      exact ancestorsOf_append_subset _ _
    have h1 : ancestorsOf (buildRunLayout logRoot rel veh tag date).2
        ⊆ startMkdirs fs logRoot rel veh tag date :=
      ancestors_subset_mkdirAll _ _
    have h2 : ancestorsOf (logRoot ++ [rel]) ⊆ startMkdirs fs logRoot rel veh tag date :=
      fun a ha => h1 (hanc ha)
    conv_lhs => rw [startMkdirs]
    rw [mkdirAll_of_present h2, mkdirAll_of_present h1]

/-- Witness for C3 at a concrete input. -/
theorem c3_run_layout_witness :
    (buildRunLayout [ "D:".data, "Logs".data ] "R300RC1".data "Veh6".data "tag".data
        "2025-01-01".data).2
      = [ "D:".data, "Logs".data ]
          ++ ["R300RC1".data, "R300RC1".data ++ und ++ "2025-01-01".data,
              buildBasePfx "R300RC1".data "Veh6".data "tag".data] :=
  (c3_run_layout [ "D:".data, "Logs".data ] "R300RC1".data "Veh6".data "tag".data
    "2025-01-01".data (by decide)).2.1

/-! ### Output Resolver polling (`_schedule_comment_filename_resolution` and
`_try_resolve_comment_filename_poll`, lines 1536-1572).

Each timer invocation of the poll first performs one resolution attempt
(`_try_resolve_comment_filename_once`), stopping on success; on failure it
increments `_resolve_tries` (initialized to `0` by the scheduler) and
re-arms the timer while `_resolve_tries <= 30`, otherwise it writes the
wall-clock fallback name and stops.  `pollGo fuel tries` models an
invocation arriving with `_resolve_tries = tries` and `fuel = 30 - tries`
re-arms still allowed; `oracle tries` is the outcome of the attempt made by
that invocation. -/

/-- Terminal outcome of the poll: resolved after some number of attempts,
or given up with the wall-clock fallback comment file name. -/
inductive PollOutcome where
  | resolved (attempts : Nat)
  | gaveUp (attempts : Nat) (fallbackName : Str)
deriving DecidableEq

/-- Number of single resolution attempts the poll performed. -/
def pollAttempts : PollOutcome → Nat
  | .resolved n => n
  | .gaveUp n _ => n

/-- The poll loop body from `_try_resolve_comment_filename_poll`. -/
def pollGo (oracle : Nat → Bool) (pfx ts : Str) : Nat → Nat → PollOutcome
  | 0, tries =>
    if oracle tries then .resolved (tries + 1)
    else .gaveUp (tries + 1) (pfx ++ ts ++ ".txt".data)
  | fuel + 1, tries =>
    if oracle tries then .resolved (tries + 1)
    else pollGo oracle pfx ts fuel (tries + 1)

/-- The full poll started by `_schedule_comment_filename_resolution`
(`_resolve_tries = 0`, re-arm allowed while `_resolve_tries <= 30`). -/
def pollRun (oracle : Nat → Bool) (pfx ts : Str) : PollOutcome :=
  pollGo oracle pfx ts 30 0

lemma pollGo_attempts_le (oracle : Nat → Bool) (pfx ts : Str) :
    ∀ (fuel tries : Nat), pollAttempts (pollGo oracle pfx ts fuel tries) ≤ tries + fuel + 1
  | 0, tries => by
    by_cases h : oracle tries <;> simp [pollGo, h, pollAttempts]
  | fuel + 1, tries => by
    by_cases h : oracle tries
    · simp [pollGo, h, pollAttempts]
    · simp only [pollGo, h, Bool.false_eq_true, if_false]
      have := pollGo_attempts_le oracle pfx ts fuel (tries + 1)
      omega

lemma pollGo_first_success (oracle : Nat → Bool) (pfx ts : Str) :
    ∀ (fuel tries k : Nat), tries ≤ k → k ≤ tries + fuel → oracle k = true →
      (∀ j, tries ≤ j → j < k → oracle j = false) →
      pollGo oracle pfx ts fuel tries = .resolved (k + 1)
  | 0, tries, k, hlo, hhi, hk, _ => by
    have : k = tries := by omega
    subst this
    simp [pollGo, hk]
  | fuel + 1, tries, k, hlo, hhi, hk, hbefore => by
    by_cases heq : tries = k
    · subst heq
      simp [pollGo, hk]
    · have htf : oracle tries = false := hbefore tries le_rfl (by omega)
      simp only [pollGo, htf, Bool.false_eq_true, if_false]
      exact pollGo_first_success oracle pfx ts fuel (tries + 1) k (by omega) (by omega) hk
        (fun j hj hjk => hbefore j (by omega) hjk)

lemma pollGo_all_fail (oracle : Nat → Bool) (pfx ts : Str) :
    ∀ (fuel tries : Nat), (∀ k, tries ≤ k → k ≤ tries + fuel → oracle k = false) →
      pollGo oracle pfx ts fuel tries = .gaveUp (tries + fuel + 1) (pfx ++ ts ++ ".txt".data)
  | 0, tries, hall => by
    simp [pollGo, hall tries le_rfl (by omega)]
  | fuel + 1, tries, hall => by
    simp only [pollGo, hall tries le_rfl (by omega), Bool.false_eq_true, if_false]
    have := pollGo_all_fail oracle pfx ts fuel (tries + 1)
      (fun k hk hk2 => hall k (by omega) (by omega))
    rw [this]
    congr 1
    omega

/-- C4 counterexample: with every attempt failing, the poll performs 31
single resolution attempts, not at most 30 — each invocation attempts
before checking `_resolve_tries <= 30`, and the re-arm bound admits 31
invocations. -/
theorem c4_poll_budget_counterexample :
    pollAttempts (pollRun (fun _ => false) "P_".data "ts".data) = 31
    ∧ ¬ pollAttempts (pollRun (fun _ => false) "P_".data "ts".data) ≤ 30 := by
  constructor
  · rfl
  · intro h
    have : (31 : Nat) ≤ 30 := by
      have he : pollAttempts (pollRun (fun _ => false) "P_".data "ts".data) = 31 := rfl
      rw [he] at h
      exact h
    omega

/-- C4 (amended): the poll makes at most 31 single attempts; it stops on
the first successful attempt, and when every attempt fails it stops after
exactly 31 attempts with the wall-clock fallback name
`prefix + timestamp + ".txt"` and polls no further. -/
theorem c4_poll_budget (oracle : Nat → Bool) (pfx ts : Str) :
    pollAttempts (pollRun oracle pfx ts) ≤ 31
    ∧ (∀ k, k ≤ 30 → oracle k = true → (∀ j, j < k → oracle j = false) →
        pollRun oracle pfx ts = .resolved (k + 1))
    ∧ ((∀ k, k ≤ 30 → oracle k = false) →
        pollRun oracle pfx ts = .gaveUp 31 (pfx ++ ts ++ ".txt".data)) := by
  refine ⟨?_, ?_, ?_⟩
  · have := pollGo_attempts_le oracle pfx ts 30 0
    simpa [pollRun] using this
  · intro k hk hsucc hbefore
    exact pollGo_first_success oracle pfx ts 30 0 k (Nat.zero_le _) (by omega) hsucc
      (fun j _ hj => hbefore j hj)
  · intro hall
    have := pollGo_all_fail oracle pfx ts 30 0 (fun k _ hk => hall k (by omega))
    simpa [pollRun] using this

/-- Witness for C4 at a concrete oracle succeeding on the third attempt. -/
theorem c4_poll_budget_witness :
    pollRun (fun k => decide (k = 2)) "P_".data "ts".data = .resolved 3 :=
  (c4_poll_budget (fun k => decide (k = 2)) "P_".data "ts".data).2.1 2 (by decide) (by decide)
    (by decide)

/-! ### Vehicle token derivation (`_vehicle_model_tag`, `_vehicle_number_tag`,
`_vehicle_descriptor`, lines 798-820 and 877-887) -/

/-- Python `dict.get` over an association list with unique keys. -/
def dictGet {β : Type} (m : List (Str × β)) (k : Str) : Option β :=
  (m.find? (fun kv => decide (kv.1 = k))).map (·.2)

/-- `_vehicle_descriptor`: catalog lookup of the stripped vehicle id,
stripped; empty when the catalog is empty or the id is unknown. -/
def vehicleDescriptor (catalog : List (Str × Str)) (vehicleId : Str) : Str :=
  if catalog = [] then []
  else pyStrip ((dictGet catalog (pyStrip vehicleId)).getD [])

/-- `_vehicle_number_tag`: `"Veh" + number` when the upper-cased, stripped
vehicle id has a known fleet number, else empty. -/
def vehicleNumberTag (numbers : List (Str × Nat)) (vehicleId : Str) : Str :=
  match dictGet numbers (pyUpper (pyStrip vehicleId)) with
  | some n => "Veh".data ++ (Nat.repr n).data
  | none => []

/-- `_vehicle_model_tag(include_id_fallback=True)` (also
`_vehicle_prefix_component`): descriptor part, then the number tag, with
the sanitized vehicle id as fallback for a missing number tag. -/
def vehicleModelTag (catalog : List (Str × Str)) (numbers : List (Str × Nat))
    (vehicleIdRaw : Str) : Str :=
  let vid := pyStrip vehicleIdRaw
  let desc := vehicleDescriptor catalog vid
  let numberTag := vehicleNumberTag numbers vid
  let parts : List Str :=
    (if desc ≠ [] then [pySanitize desc] else [])
      ++ (if numberTag ≠ [] then [numberTag]
          else if vid ≠ [] then [pySanitize vid] else [])
  List.intercalate und (parts.filter (· ≠ []))

/-- The vehicle token exactly as claim C5 words it: descriptor and fleet
number give `sanitize(descriptor) + "_Veh" + n`; a fleet number alone gives
`"Veh" + n`; otherwise the sanitized raw vehicle id. -/
def claimVehicleToken (desc numberTag vid : Str) : Str :=
  if desc ≠ [] ∧ numberTag ≠ [] then pySanitize desc ++ und ++ numberTag
  else if numberTag ≠ [] then numberTag
  else pySanitize vid

/-- The corrected description: with a descriptor but no fleet number the
code appends the sanitized vehicle id after the descriptor instead of
dropping the descriptor. -/
def amendedVehicleToken (desc numberTag vid : Str) : Str :=
  if desc ≠ [] then
    if numberTag ≠ [] then pySanitize desc ++ und ++ numberTag
    else if vid ≠ [] then pySanitize desc ++ und ++ pySanitize vid
    else pySanitize desc
  else if numberTag ≠ [] then numberTag
  else pySanitize vid

example : vehicleModelTag [("AB".data, "XC60".data)] [("AB".data, 6)] "AB".data
    = "XC60_Veh6".data := by decide

/-- C5 counterexample: for vehicle id `"AB"` with catalog descriptor
`"XC60"` and no fleet number, the code yields `"XC60_AB"`, while the claim
prescribes the sanitized raw vehicle id `"AB"`. -/
theorem c5_vehicle_token_counterexample :
    vehicleModelTag [("AB".data, "XC60".data)] [] "AB".data
      ≠ claimVehicleToken (vehicleDescriptor [("AB".data, "XC60".data)] (pyStrip "AB".data))
          (vehicleNumberTag [] (pyStrip "AB".data)) (pyStrip "AB".data) := by decide

lemma pySanitize_eq_nil_iff {s : Str} : pySanitize s = [] ↔ s = [] := by
  simp [pySanitize]

lemma intercalate_und_single (a : Str) : List.intercalate und [a] = a := by
  simp [List.intercalate]

lemma intercalate_und_pair (a b : Str) : List.intercalate und [a, b] = a ++ und ++ b := by
  simp [List.intercalate, List.intersperse]

/-- C5 (amended): the vehicle token is `sanitize(descriptor) + "_Veh" + n`
when both a descriptor and a fleet number exist; `"Veh" + n` when only a
fleet number is known; `sanitize(descriptor) + "_" + sanitize(vehicle id)`
when a descriptor exists without a fleet number; and otherwise the
sanitized raw vehicle id (absent catalog entries degrade to the id-only
form). -/
theorem c5_vehicle_token (catalog : List (Str × Str)) (numbers : List (Str × Nat))
    (vidRaw : Str) :
    vehicleModelTag catalog numbers vidRaw
      = amendedVehicleToken (vehicleDescriptor catalog (pyStrip vidRaw))
          (vehicleNumberTag numbers (pyStrip vidRaw)) (pyStrip vidRaw) := by
  simp only [vehicleModelTag, amendedVehicleToken]
  generalize vehicleDescriptor catalog (pyStrip vidRaw) = d
  generalize vehicleNumberTag numbers (pyStrip vidRaw) = n
  generalize pyStrip vidRaw = v
  by_cases hd : d = [] <;> by_cases hn : n = [] <;> by_cases hv : v = [] <;>
    simp [hd, hn, hv, List.filter, pySanitize_eq_nil_iff,
      intercalate_und_single, intercalate_und_pair, List.intercalate]

/-! ### Installation Catalog sort order (`discover_canoe_installations`,
`src/services/canoe.py` lines 234-259).

The code performs `installs.sort(key=label.lower())` followed by
`installs.sort(key=version_hint, reverse=True)`.  Python's `list.sort` is a
stable sort; both passes are modelled with Mathlib's stable
`List.insertionSort` over the corresponding total preorders. -/

/-- Boolean lexicographic less-or-equal on lists over a linear order:
Python's tuple and string comparison (a strict prefix is smaller). -/
def lexLe {β : Type} [LinearOrder β] : List β → List β → Bool
  | [], _ => true
  | _ :: _, [] => false
  | a :: as, b :: bs => if a < b then true else if b < a then false else lexLe as bs

/-- Boolean lexicographic strictly-less on lists over a linear order. -/
def lexLt {β : Type} [LinearOrder β] : List β → List β → Bool
  | [], [] => false
  | [], _ :: _ => true
  | _ :: _, [] => false
  | a :: as, b :: bs => if a < b then true else if b < a then false else lexLt as bs

lemma lexLe_refl {β : Type} [LinearOrder β] : ∀ (x : List β), lexLe x x = true
  | [] => rfl
  | a :: as => by simp [lexLe, lt_irrefl, lexLe_refl as]

lemma lexLe_total {β : Type} [LinearOrder β] :
    ∀ (x y : List β), lexLe x y = true ∨ lexLe y x = true
  | [], _ => Or.inl rfl
  | _ :: _, [] => Or.inr rfl
  | a :: as, b :: bs => by
    rcases lt_trichotomy a b with h | h | h
    · exact Or.inl (by simp [lexLe, h])
    · subst h
      rcases lexLe_total as bs with ih | ih
      · exact Or.inl (by simp [lexLe, lt_irrefl, ih])
      · exact Or.inr (by simp [lexLe, lt_irrefl, ih])
    · exact Or.inr (by simp [lexLe, h])

lemma lexLe_trans {β : Type} [LinearOrder β] :
    ∀ (x y z : List β), lexLe x y = true → lexLe y z = true → lexLe x z = true
  | [], _, _, _, _ => rfl
  | _ :: _, [], _, h1, _ => by simp [lexLe] at h1
  | _ :: _, _ :: _, [], _, h2 => by simp [lexLe] at h2
  | a :: as, b :: bs, c :: cs, h1, h2 => by
    rcases lt_trichotomy a b with hab | hab | hab
    · rcases lt_trichotomy b c with hbc | hbc | hbc
      · simp [lexLe, lt_trans hab hbc]
      · subst hbc
        simp [lexLe, hab]
      · rw [lexLe, if_neg (asymm hbc), if_pos hbc] at h2
        cases h2
    · subst hab
      rw [lexLe, if_neg (lt_irrefl a), if_neg (lt_irrefl a)] at h1
      rcases lt_trichotomy a c with hac | hac | hac
      · simp [lexLe, hac]
      · subst hac
        rw [lexLe, if_neg (lt_irrefl a), if_neg (lt_irrefl a)] at h2 ⊢
        exact lexLe_trans as bs cs h1 h2
      · rw [lexLe, if_neg (asymm hac), if_pos hac] at h2
        cases h2
    · rw [lexLe, if_neg (asymm hab), if_pos hab] at h1
      cases h1

lemma lexLe_antisymm {β : Type} [LinearOrder β] :
    ∀ (x y : List β), lexLe x y = true → lexLe y x = true → x = y
  | [], [], _, _ => rfl
  | [], _ :: _, _, h2 => by simp [lexLe] at h2
  | _ :: _, [], h1, _ => by simp [lexLe] at h1
  | a :: as, b :: bs, h1, h2 => by
    rcases lt_trichotomy a b with hab | hab | hab
    · rw [lexLe, if_neg (asymm hab), if_pos hab] at h2
      cases h2
    · subst hab
      rw [lexLe, if_neg (lt_irrefl a), if_neg (lt_irrefl a)] at h1 h2
      rw [lexLe_antisymm as bs h1 h2]
    · rw [lexLe, if_neg (asymm hab), if_pos hab] at h1
      cases h1

lemma lexLt_iff {β : Type} [LinearOrder β] :
    ∀ (x y : List β), lexLt x y = true ↔ lexLe y x = false
  | [], [] => by simp [lexLt, lexLe]
  | [], _ :: _ => by simp [lexLt, lexLe]
  | _ :: _, [] => by simp [lexLt, lexLe]
  | a :: as, b :: bs => by
    rcases lt_trichotomy a b with hab | hab | hab
    · simp [lexLt, lexLe, hab, asymm hab]
    · subst hab
      simp [lexLt, lexLe, lt_irrefl, lexLt_iff as bs]
    · simp [lexLt, lexLe, hab, asymm hab]

lemma lexLt_nil_right {β : Type} [LinearOrder β] : ∀ (x : List β), lexLt x [] = false
  | [] => rfl
  | _ :: _ => rfl

/-- A discovered engine installation (`CANoeInstallation` in
`src/services/canoe.py`). -/
structure Installation where
  label : Str
  execPath : Str
  versionHint : List Nat
  progId : Option Str
deriving DecidableEq

/-- The first sort pass's total preorder: case-insensitive label
ascending (`key=lambda inst: inst.label.lower()`). -/
def labelLe (a b : Installation) : Prop :=
  lexLe (pyLower a.label) (pyLower b.label) = true

/-- The second sort pass's total preorder: version hint descending
(`key=lambda inst: inst.version_hint, reverse=True`). -/
def hintGe (a b : Installation) : Prop :=
  lexLe b.versionHint a.versionHint = true

instance : DecidableRel labelLe := fun _ _ => Bool.decEq _ true

instance : DecidableRel hintGe := fun _ _ => Bool.decEq _ true

instance : IsTotal Installation labelLe :=
  ⟨fun a b => lexLe_total (pyLower a.label) (pyLower b.label)⟩

instance : IsTrans Installation labelLe :=
  ⟨fun _ _ _ hab hbc => lexLe_trans _ _ _ hab hbc⟩

instance : IsTotal Installation hintGe :=
  ⟨fun a b => (lexLe_total b.versionHint a.versionHint).imp id id⟩

instance : IsTrans Installation hintGe :=
  ⟨fun _ _ _ hab hbc => lexLe_trans _ _ _ hbc hab⟩

/-- The two stable sort passes at the end of
`discover_canoe_installations`: by lower-cased label ascending, then by
version hint descending. -/
def sortInstallations (l : List Installation) : List Installation :=
  List.insertionSort hintGe (List.insertionSort labelLe l)

/-- The order claim C6 asserts of the output: each element is followed only
by elements with a strictly lexicographically smaller version hint, or an
equal hint and a case-insensitively greater-or-equal label. -/
def rankedBefore (a b : Installation) : Prop :=
  lexLt b.versionHint a.versionHint = true
  ∨ (a.versionHint = b.versionHint ∧ labelLe a b)

lemma rankedBefore_of_hint_le {b e : Installation}
    (h1 : lexLe e.versionHint b.versionHint = true) (h2 : labelLe b e) :
    rankedBefore b e := by
  by_cases h : lexLe b.versionHint e.versionHint = true
  · exact Or.inr ⟨(lexLe_antisymm _ _ h1 h).symm, h2⟩
  · exact Or.inl ((lexLt_iff _ _).mpr (Bool.not_eq_true _ ▸ h))

lemma orderedInsert_rankedBefore (b : Installation) :
    ∀ (L : List Installation), L.Pairwise hintGe → L.Pairwise rankedBefore →
      (∀ e ∈ L, labelLe b e) →
      (L.orderedInsert hintGe b).Pairwise rankedBefore
  | [], _, _, _ => List.pairwise_singleton _ _
  | c :: S, hS2, hSp, hb => by
    by_cases hbc : hintGe b c
    · rw [List.orderedInsert, if_pos hbc]
      refine List.pairwise_cons.mpr ⟨?_, hSp⟩
      intro e he
      have hle : lexLe e.versionHint b.versionHint = true := by
        rcases List.mem_cons.mp he with rfl | heS
        · exact hbc
        · exact lexLe_trans _ _ _ ((List.pairwise_cons.mp hS2).1 e heS) hbc
      exact rankedBefore_of_hint_le hle (hb e he)
    · rw [List.orderedInsert, if_neg hbc]
      refine List.pairwise_cons.mpr ⟨?_, ?_⟩
      · intro e he
        rcases (List.mem_orderedInsert hintGe).mp he with rfl | heS
        · refine Or.inl ((lexLt_iff _ _).mpr ?_)
          have : ¬ lexLe c.versionHint e.versionHint = true := hbc
          exact Bool.not_eq_true _ ▸ this
        · exact (List.pairwise_cons.mp hSp).1 e heS
      · exact orderedInsert_rankedBefore b S (List.pairwise_cons.mp hS2).2
          (List.pairwise_cons.mp hSp).2 (fun e he => hb e (List.mem_cons_of_mem _ he))

lemma insertionSort_hintGe_rankedBefore :
    ∀ (l1 : List Installation), l1.Pairwise labelLe →
      (List.insertionSort hintGe l1).Pairwise rankedBefore
  | [], _ => List.Pairwise.nil
  | b :: t, h => by
    obtain ⟨hbt, ht⟩ := List.pairwise_cons.mp h
    rw [List.insertionSort]
    exact orderedInsert_rankedBefore b _
      (List.sorted_insertionSort hintGe t)
      (insertionSort_hintGe_rankedBefore t ht)
      (fun e he => hbt e ((List.mem_insertionSort hintGe).mp he))

/-- C6: the discovered installation list is returned as a permutation of
its input, ordered primarily by version hint in descending lexicographic
order (the empty hint last, since nothing is lexicographically below it)
with hint ties broken by case-insensitive label ascending; in particular
hints `(5,1,0)`, `(5,2,0)`, `()` come out as `(5,2,0)`, `(5,1,0)`, `()`. -/
theorem c6_sort_order (l : List Installation) :
    List.Perm (sortInstallations l) l
    ∧ (sortInstallations l).Pairwise rankedBefore
    ∧ (∀ a b : Installation, rankedBefore a b → a.versionHint = [] → b.versionHint = [])
    ∧ sortInstallations
        [⟨"b".data, "p1".data, [5, 1, 0], none⟩, ⟨"a".data, "p2".data, [5, 2, 0], none⟩,
          ⟨"c".data, "p3".data, [], none⟩]
      = [⟨"a".data, "p2".data, [5, 2, 0], none⟩, ⟨"b".data, "p1".data, [5, 1, 0], none⟩,
          ⟨"c".data, "p3".data, [], none⟩] := by
  refine ⟨?_, ?_, ?_, by decide⟩
  · exact (List.perm_insertionSort hintGe _).trans (List.perm_insertionSort labelLe l)
  · exact insertionSort_hintGe_rankedBefore _ (List.sorted_insertionSort labelLe l)
  · intro a b hab ha
    rcases hab with h | h
    · rw [ha] at h
      rw [lexLt_nil_right] at h
      cases h
    · exact h.1 ▸ ha

/-- Witness for C6's conditional conjunct at concrete installations. -/
theorem c6_sort_order_witness :
    (⟨"b".data, "p".data, [], none⟩ : Installation).versionHint = [] :=
  (c6_sort_order []).2.2.1 ⟨"a".data, "q".data, [], none⟩ ⟨"b".data, "p".data, [], none⟩
    (Or.inr ⟨rfl, by decide⟩) rfl

/-! ### Session State Machine: Stop (`_on_start_stop_click` stop case,
lines 1740-1753, and `_reset_current_session_state`, lines 1412-1417) -/

/-- The per-run session fields held by the window
(`comment_file_path`, `_current_log_folder`, `_current_prefix`,
`_record_start_wallclock`, `_comment_metadata_written`). -/
structure SessionFields where
  commentFilePath : Option PathC
  currentLogFolder : Option PathC
  currentPfx : Option Str
  recordStartWallclock : Option ℤ
  commentMetadataWritten : Bool
deriving DecidableEq

/-- `_reset_current_session_state`: every Recording Run field cleared. -/
def resetCurrentSessionState : SessionFields :=
  { commentFilePath := none
    currentLogFolder := none
    currentPfx := none
    recordStartWallclock := none
    commentMetadataWritten := false }

/-- Observable effects of the stop branch. -/
inductive StopEffect where
  | engineStop
  | statusError
deriving DecidableEq

/-- The stop case of `_on_start_stop_click`: call
`canoe.Measurement.Stop()`; on an exception report the error and return
without touching the session fields; on success clear them all via
`_reset_current_session_state`.  `stopOk` is whether the engine's stop call
returned without raising. -/
def stopCase (stopOk : Bool) (s : SessionFields) : SessionFields × List StopEffect :=
  if stopOk then (resetCurrentSessionState, [.engineStop])
  else (s, [.engineStop, .statusError])

/-- C7: Stop always invokes the engine's stop operation; on success every
Recording Run field is cleared together, and on an engine exception the
error is reported and every field is left unchanged. -/
theorem c7_stop_clears_run (stopOk : Bool) (s : SessionFields) :
    StopEffect.engineStop ∈ (stopCase stopOk s).2
    ∧ (stopOk = true →
        (stopCase stopOk s).1.commentFilePath = none
        ∧ (stopCase stopOk s).1.currentLogFolder = none
        ∧ (stopCase stopOk s).1.currentPfx = none
        ∧ (stopCase stopOk s).1.recordStartWallclock = none
        ∧ (stopCase stopOk s).1.commentMetadataWritten = false)
    ∧ (stopOk = false →
        (stopCase stopOk s).1 = s ∧ StopEffect.statusError ∈ (stopCase stopOk s).2) := by
  cases stopOk <;> simp [stopCase, resetCurrentSessionState]

/-- Witness for C7 at a concrete session state, both for a successful and
for a failing engine stop. -/
theorem c7_stop_clears_run_witness :
    (stopCase true ⟨some ["r".data], some ["r".data], some "P_".data, some 5, true⟩).1.commentFilePath
        = none
    ∧ (stopCase false ⟨some ["r".data], some ["r".data], some "P_".data, some 5, true⟩).1
        = ⟨some ["r".data], some ["r".data], some "P_".data, some 5, true⟩ :=
  ⟨((c7_stop_clears_run true ⟨some ["r".data], some ["r".data], some "P_".data, some 5, true⟩).2.1
      rfl).1,
   ((c7_stop_clears_run false ⟨some ["r".data], some ["r".data], some "P_".data, some 5, true⟩).2.2
      rfl).1⟩

/-! ### Persisted state (`AppState` in `src/core/state.py`, lines 57-104) -/

/-- The persisted application state: seven string fields. -/
structure AppState where
  cfg_file : Str
  tag : Str
  sw_rel : Str
  me_version : Str
  vehicle_id : Str
  canoe_exec : Str
  log_dir : Str
deriving DecidableEq

/-- `AppState()`: all fields default to the empty string. -/
def defaultAppState : AppState := ⟨[], [], [], [], [], [], []⟩

/-- The recognized keys (`AppState().__dict__.keys()`), in field order. -/
def appStateKeys : List Str :=
  ["cfg_file".data, "tag".data, "sw_rel".data, "me_version".data, "vehicle_id".data,
    "canoe_exec".data, "log_dir".data]

/-- `AppState.save`: `json.dump(asdict(state))` — a flat JSON object with
one string-valued entry per field, in field order. -/
def saveAppState (st : AppState) : List (Str × Str) :=
  [("cfg_file".data, st.cfg_file), ("tag".data, st.tag), ("sw_rel".data, st.sw_rel),
    ("me_version".data, st.me_version), ("vehicle_id".data, st.vehicle_id),
    ("canoe_exec".data, st.canoe_exec), ("log_dir".data, st.log_dir)]

/-- What `AppState.load` finds on disk: no file, unparsable JSON, JSON that
is not an object, or an object with string entries. -/
inductive StateFile where
  | missing
  | parseFailure
  | notDict
  | dict (kvs : List (Str × Str))

/-- `AppState.load`: defaults when the file is missing, unparsable or not a
dict; otherwise keep only recognized keys and build the state from them
(`AppState(**known)` — any field without an entry keeps its default). -/
def loadAppState : StateFile → AppState
  | .missing => defaultAppState
  | .parseFailure => defaultAppState
  | .notDict => defaultAppState
  | .dict kvs =>
    let known := kvs.filter (fun kv => decide (kv.1 ∈ appStateKeys))
    { cfg_file := ((dictGet known "cfg_file".data).getD [])
      tag := ((dictGet known "tag".data).getD [])
      sw_rel := ((dictGet known "sw_rel".data).getD [])
      me_version := ((dictGet known "me_version".data).getD [])
      vehicle_id := ((dictGet known "vehicle_id".data).getD [])
      canoe_exec := ((dictGet known "canoe_exec".data).getD [])
      log_dir := ((dictGet known "log_dir".data).getD []) }

/-- C8: saving any state and loading it back restores every field; loading
ignores unrecognized keys (filtering them away changes nothing); and a
missing file, a parse failure or a non-object file all yield the default
state. -/
theorem c8_state_round_trip :
    (∀ st : AppState, loadAppState (.dict (saveAppState st)) = st)
    ∧ (∀ kvs : List (Str × Str),
        loadAppState (.dict kvs)
          = loadAppState (.dict (kvs.filter (fun kv => decide (kv.1 ∈ appStateKeys)))))
    ∧ loadAppState .missing = defaultAppState
    ∧ loadAppState .parseFailure = defaultAppState
    ∧ loadAppState .notDict = defaultAppState := by
  refine ⟨?_, ?_, rfl, rfl, rfl⟩
  · intro st
    cases st
    rfl
  · intro kvs
    simp only [loadAppState]
    rw [List.filter_filter]
    have hff : ∀ (kv : Str × Str),
        (decide (kv.1 ∈ appStateKeys) && decide (kv.1 ∈ appStateKeys))
          = decide (kv.1 ∈ appStateKeys) := fun kv => Bool.and_self _
    rw [List.filter_congr (fun kv _ => hff kv)]

/-! ### Comment-file-path invariant (C9): Start (lines 1806-1816), the
resolution success and rename-failure paths (lines 1619-1638), and the
wall-clock fallback (lines 1562-1572). -/

/-- The `.txt` extension constant. -/
def txtExt : Str := ".txt".data

lemma revDotDist_txt (r : Str) : revDotDist ('t' :: 'x' :: 't' :: '.' :: r) = some 3 := by
  simp [revDotDist]

lemma pyExt_append_txt {xs : Str} (h : xs ≠ []) : pyExt (xs ++ txtExt) = txtExt := by
  have hrevtxt : txtExt.reverse = ['t', 'x', 't', '.'] := rfl
  have hrev : (xs ++ txtExt).reverse = 't' :: 'x' :: 't' :: '.' :: xs.reverse := by
    rw [List.reverse_append, hrevtxt]
    rfl
  have hdot : revDotDist ((xs ++ txtExt).reverse) = some 3 := by
    rw [hrev]
    exact revDotDist_txt _
  have hlen : (xs ++ txtExt).length = xs.length + 4 := by
    simp [txtExt]
  have hidx : (xs ++ txtExt).length - 1 - 3 = xs.length := by omega
  have hpos : 0 < xs.length := List.length_pos.mpr h
  unfold pyExt pyDotIdx
  rw [hdot, Option.map_some']
  rw [hidx]
  show (if 0 < xs.length ∧ xs.length < (xs ++ txtExt).length - 1
      then List.drop xs.length (xs ++ txtExt) else []) = txtExt
  rw [if_pos ⟨hpos, by omega⟩]
  exact List.drop_left xs txtExt

/-- Per-run comment/resolution state: the run's log folder, prefix
(ending in `"_"`), start wall-clock and current `comment_file_path`. -/
structure RunState where
  folder : PathC
  pfx : Str
  start : ℤ
  commentPath : PathC

/-- Events affecting `comment_file_path` during one run: a resolution poll
attempt over the folder's current entries (with the outcome of the
`Path.replace` call when a rename is needed), or the wall-clock fallback
after the attempts are exhausted. -/
inductive RunEvent where
  | pollAttempt (entries : List FileEntry) (renameOk : Bool)
  | fallbackTick (ts : Str)

/-- Start of a run (lines 1806-1816): the provisional comment path
`log_folder / (base_prefix + "_" + ts + ".txt")`. -/
def startRunState (folder : PathC) (basePfx : Str) (start : ℤ) (ts : Str) : RunState :=
  { folder := folder
    pfx := basePfx ++ und
    start := start
    commentPath := folder ++ [basePfx ++ und ++ ts ++ txtExt] }

/-- Effect of one event on the run state: a successful resolution installs
`folder / (prefix + suffix + ".txt")` (kept unchanged when the rename of
the provisional file raises); a failed attempt changes nothing; the
fallback installs `folder / (prefix + ts + ".txt")`. -/
def runStep (s : RunState) : RunEvent → RunState
  | .pollAttempt entries renameOk =>
    match resolveOnceSuffix s.pfx s.start entries with
    | none => s
    | some suf =>
      if renameOk then { s with commentPath := s.folder ++ [s.pfx ++ suf ++ txtExt] }
      else s
  | .fallbackTick ts => { s with commentPath := s.folder ++ [s.pfx ++ ts ++ txtExt] }

/-- The invariant claim C9 asserts of `comment_file_path`: it is non-empty,
lies directly inside the run's log folder, its file name starts with the
run's prefix (trailing underscore included) and its extension is `.txt`. -/
def commentPathInv (s : RunState) : Prop :=
  ∃ fname, s.commentPath = s.folder ++ [fname]
    ∧ s.pfx.isPrefixOf fname = true
    ∧ pyExt fname = txtExt
    ∧ fname ≠ []

lemma commentPathInv_of_shape {s : RunState} (hpfx : s.pfx ≠ []) (mid : Str)
    (h : s.commentPath = s.folder ++ [s.pfx ++ mid ++ txtExt]) : commentPathInv s := by
  refine ⟨s.pfx ++ mid ++ txtExt, h, ?_, ?_, ?_⟩
  · rw [List.isPrefixOf_iff_prefix, List.append_assoc]
    exact List.prefix_append _ _
  · exact pyExt_append_txt (fun hcon => hpfx (List.append_eq_nil.mp hcon).1)
  · exact fun hcon => hpfx (List.append_eq_nil.mp (List.append_eq_nil.mp hcon).1).1

lemma resolveOnceSuffix_ne_nil {pfx : Str} {start : ℤ} {entries : List FileEntry} {suf : Str}
    (h : resolveOnceSuffix pfx start entries = some suf) : suf ≠ [] := by
  unfold resolveOnceSuffix at h
  cases hscan : resolveScan pfx start entries with
  | none => rw [hscan] at h; cases h
  | some best =>
    rw [hscan] at h
    simp only at h
    by_cases hs : (pyStem best.name).drop pfx.length = []
    · rw [if_pos hs] at h
      cases h
    · rw [if_neg hs] at h
      cases h
      exact hs

lemma runStep_preserves (s : RunState) (e : RunEvent) :
    (runStep s e).folder = s.folder ∧ (runStep s e).pfx = s.pfx := by
  cases e with
  | pollAttempt entries renameOk =>
    simp only [runStep]
    cases hres : resolveOnceSuffix s.pfx s.start entries with
    | none => exact ⟨rfl, rfl⟩
    | some suf => cases renameOk <;> exact ⟨rfl, rfl⟩
  | fallbackTick ts => exact ⟨rfl, rfl⟩

lemma runStep_inv {s : RunState} (hpfx : s.pfx ≠ []) (hinv : commentPathInv s)
    (e : RunEvent) : commentPathInv (runStep s e) := by
  cases e with
  | pollAttempt entries renameOk =>
    simp only [runStep]
    cases hres : resolveOnceSuffix s.pfx s.start entries with
    | none => exact hinv
    | some suf =>
      cases renameOk with
      | true =>
        exact @commentPathInv_of_shape { s with
          commentPath := s.folder ++ [s.pfx ++ suf ++ txtExt] } hpfx suf rfl
      | false => exact hinv
  | fallbackTick ts =>
    exact @commentPathInv_of_shape { s with
      commentPath := s.folder ++ [s.pfx ++ ts ++ txtExt] } hpfx ts rfl

lemma runFold_inv :
    ∀ (events : List RunEvent) (s : RunState), s.pfx ≠ [] → commentPathInv s →
      (events.foldl runStep s).folder = s.folder
      ∧ (events.foldl runStep s).pfx = s.pfx
      ∧ commentPathInv (events.foldl runStep s)
  | [], s, _, hinv => ⟨rfl, rfl, hinv⟩
  | e :: t, s, hpfx, hinv => by
    rw [List.foldl_cons]
    obtain ⟨hf, hp⟩ := runStep_preserves s e
    obtain ⟨ihf, ihp, ihinv⟩ := runFold_inv t (runStep s e) (hp ▸ hpfx)
      (runStep_inv hpfx hinv e)
    exact ⟨ihf.trans hf, ihp.trans hp, ihinv⟩

/-- C9: from a successful Start until the run is cleared, through any
sequence of resolution attempts (successful or not, with or without a
failing rename) and the wall-clock fallback, `comment_file_path` always
denotes a file directly inside the run's log folder whose name is
non-empty, starts with the run's prefix (trailing underscore included) and
has extension `.txt`. -/
theorem c9_comment_path_invariant (folder : PathC) (basePfx : Str) (start : ℤ) (ts : Str)
    (events : List RunEvent) :
    (events.foldl runStep (startRunState folder basePfx start ts)).folder = folder
    ∧ (events.foldl runStep (startRunState folder basePfx start ts)).pfx = basePfx ++ und
    ∧ commentPathInv (events.foldl runStep (startRunState folder basePfx start ts)) := by
  have hpfx : (startRunState folder basePfx start ts).pfx ≠ [] := by
    simp [startRunState, und]
  have hinv : commentPathInv (startRunState folder basePfx start ts) :=
    commentPathInv_of_shape hpfx ts rfl
  exact runFold_inv events _ hpfx hinv

/-! ### SW release compose/split (`_compose_sw_release`, `_split_sw_release`
in `src/app.py` lines 1291-1308, with the release lists of lines 29-65) -/

/-- The known major releases (`SW_MAJOR_RELEASES`). -/
def swMajorReleases : List Str :=
  ["R120".data, "R200".data, "R300".data, "R310".data, "R320".data,
    "R400".data, "R410".data, "R420".data, "R500".data, "R510".data]

/-- The known minor releases (`SW_MINOR_RELEASES`). -/
def swMinorReleases : List Str :=
  ["RX0".data, "RX1".data, "RX2".data, "RX3".data, "RX4".data, "RX5".data,
    "RX6".data, "RX7".data, "RX8".data, "RX9".data, "RX10".data,
    "RC0".data, "RC1".data, "RC2".data, "RC3".data, "RC4".data, "RC5".data,
    "RC6".data, "RC7".data, "RC8".data, "RC9".data, "RC10".data]

/-- `_compose_sw_release`: strip and upper-case both parts, concatenate,
strip. -/
def composeSwRelease (major minor : Str) : Str :=
  pyStrip (pyUpper (pyStrip major) ++ pyUpper (pyStrip minor))

/-- The candidate loop of `_split_sw_release`: the first candidate whose
non-empty stripped upper-case form is a prefix of `raw` wins (`break`). -/
def findMajor (raw : Str) : List Str → Option Str
  | [] => none
  | c :: rest =>
    if pyUpper (pyStrip c) ≠ [] ∧ (pyUpper (pyStrip c)).isPrefixOf raw then some c
    else findMajor raw rest

/-- `_split_sw_release`: find the first major whose upper-cased form
prefixes the upper-cased input; its remainder is the minor when it is a
known minor, else the default; no match yields the default pair.  (The
final `major or "", minor or ""` of the source is the identity here: every
value returned on either side is non-empty.) -/
def splitSwRelease (combined : Str) : Str × Str :=
  let defaultMajor := swMajorReleases.headD []
  let defaultMinor := swMinorReleases.headD []
  let raw := pyUpper (pyStrip combined)
  match findMajor raw swMajorReleases with
  | none => (defaultMajor, defaultMinor)
  | some c =>
    let remainder := raw.drop (pyUpper (pyStrip c)).length
    (c, if remainder ∈ swMinorReleases then remainder else defaultMinor)

example : splitSwRelease "R300RC1".data = ("R300".data, "RC1".data) := by decide

lemma findMajor_eq_none {raw : Str} :
    ∀ (cands : List Str),
      (∀ c ∈ cands, ¬ (pyUpper (pyStrip c)).isPrefixOf raw = true) →
      findMajor raw cands = none
  | [], _ => rfl
  | c :: rest, h => by
    rw [findMajor, if_neg, findMajor_eq_none rest (fun x hx => h x (List.mem_cons_of_mem _ hx))]
    intro hcon
    exact h c (List.mem_cons_self _ _) hcon.2

/-- C10: composing any known major with any known minor and splitting the
result recovers exactly that pair, and splitting a string that no known
major prefixes yields the default pair (first major, first minor). -/
theorem c10_sw_release_round_trip :
    (∀ major ∈ swMajorReleases, ∀ minor ∈ swMinorReleases,
        splitSwRelease (composeSwRelease major minor) = (major, minor))
    ∧ (∀ s : Str,
        (∀ major ∈ swMajorReleases,
          ¬ (pyUpper (pyStrip major)).isPrefixOf (pyUpper (pyStrip s)) = true) →
        splitSwRelease s = ("R120".data, "RX0".data)) := by
  constructor
  · decide
  · intro s hnone
    simp only [splitSwRelease, findMajor_eq_none swMajorReleases hnone]
    rfl

/-- Witness for C10 at a concrete pair and at a string matching no major. -/
theorem c10_sw_release_round_trip_witness :
    splitSwRelease (composeSwRelease "R300".data "RC1".data) = ("R300".data, "RC1".data)
    ∧ splitSwRelease "HELLO".data = ("R120".data, "RX0".data) :=
  ⟨c10_sw_release_round_trip.1 "R300".data (by decide) "RC1".data (by decide),
   c10_sw_release_round_trip.2 "HELLO".data (by decide)⟩
